import Mathlib

/-!
# Resource diff engine of `gha-kustomize-cmp` (`main.go`)

A shallow embedding of the diffing code (`buildSummary`, `isModified`) and of the
command templates (`appendableArgCmd`, `cleanAndRestore`) of `main.go`, followed by the
properties established about them.

Modelling conventions

* A Go slice is a `List`; a nil slice and an empty slice are both `[]`.
* A Go `error` value is an `Option error` (`none` is the nil error).
* A function that can stop with a run-time panic (an index out of range) returns an
  `Option`; `none` is the panic.
* The types `resource.Info` and `resource.Result` belong to `k8s.io/cli-runtime`; only
  what `main.go` reads from them is represented: the exported fields of an `Info`, and
  for a `Result` the pair that `Infos()` hands back.  Pointers are taken to be non-nil.
* `reflect.DeepEqual` on two `*resource.Info` is structural equality of the records.
-/

/-- The Go `error` interface, represented by its message. -/
abbrev error := String

namespace schema

/-- The `schema.GroupVersionKind` triple reported by `GetObjectKind().GroupVersionKind()`. -/
structure GroupVersionKind where
  Group : String
  Version : String
  Kind : String
  deriving DecidableEq, Repr

end schema

namespace runtime

/-- A decoded `runtime.Object`: its group/version/kind and the decoded content, kept as
the list of its (field path, value) pairs. -/
structure Object where
  gvk : schema.GroupVersionKind
  content : List (String × String)
  deriving DecidableEq, Repr

end runtime

namespace resource

/-- The `resource.Info` record, with the fields that carry data for a locally built
(client-less) result. -/
structure Info where
  Namespace : String
  Name : String
  Source : String
  Object : runtime.Object
  ResourceVersion : String
  deriving DecidableEq, Repr

/-- A `resource.Result`, represented by what its method `Infos()` returns. -/
structure Result where
  infos : List Info
  err : Option error
  deriving DecidableEq, Repr

/-- The method `(*Result).Infos()`: the resource list and the error. -/
def Result.Infos (r : Result) : List Info × Option error :=
  (r.infos, r.err)

end resource

namespace reflect

/-- The call `reflect.DeepEqual(a, b)` on two `*resource.Info`. -/
def DeepEqual (a b : resource.Info) : Bool :=
  decide (a = b)

end reflect

/-- The Go struct `modification` (main.go, lines 259-262). -/
structure modification where
  before : resource.Info
  after : resource.Info
  deriving DecidableEq, Repr

/-- The Go struct `summary` (main.go, lines 249-253). -/
structure summary where
  removed : List resource.Info
  added : List resource.Info
  modified : List modification
  deriving DecidableEq, Repr

/-- The function `isModified` (main.go, lines 255-257). -/
def isModified (a b : resource.Info) : Bool :=
  !reflect.DeepEqual a b

/-- The inner scans of `buildSummary` (lines 210-217 and 228-234): walk `l` from index `i`
looking for a resource called `name`, stopping at the first hit.  The result is the pair
`(j, found)` as the loop leaves it; the third argument is the value `j` holds so far
(`j` is only assigned when an iteration starts). -/
def scanNames (name : String) : List resource.Info → Nat → Nat → Nat × Bool
  | [], _, j => (j, false)
  | h :: rest, i, _ =>
    if name = h.Name then (i, true) else scanNames name rest (i + 1) i

/-- The first loop of `buildSummary` (lines 209-226) over the remaining base resources,
threading the slices `removed` and `modified`.  `none` is the panic of `hI[j]` with `j`
out of range. -/
def baseLoop (hI : List resource.Info) :
    List resource.Info → List resource.Info → List modification →
      Option (List resource.Info × List modification)
  | [], removed, modified => some (removed, modified)
  | b :: rest, removed, modified =>
    let jf := scanNames b.Name hI 0 0
    if !jf.2 then
      baseLoop hI rest (removed ++ [b]) modified
    else
      match hI[jf.1]? with
      | none => none
      | some h =>
        if isModified h b then
          baseLoop hI rest removed (modified ++ [{ before := b, after := h }])
        else
          baseLoop hI rest removed modified

/-- The second loop of `buildSummary` (lines 227-239) over the remaining head resources,
threading the slice `added`. -/
def headLoop (bI : List resource.Info) :
    List resource.Info → List resource.Info → List resource.Info
  | [], added => added
  | h :: rest, added =>
    if !(scanNames h.Name bI 0 0).2 then
      headLoop bI rest (added ++ [h])
    else
      headLoop bI rest added

/-- The function `buildSummary` (main.go, lines 196-247).  The inner pair is the Go return
value `(*summary, error)`; the outer `none` is a run-time panic. -/
def buildSummary (base head : resource.Result) : Option (Option summary × Option error) :=
  match base.Infos with
  | (_, some err) =>
    some (none, some ("unable to get manifest info from base result: " ++ err))
  | (bI, none) =>
    match head.Infos with
    | (_, some err) =>
      some (none, some ("unable to get manifest info from head result: " ++ err))
    | (hI, none) =>
      match baseLoop hI bI [] [] with
      | none => none
      | some (removed, modified) =>
        some (some { removed := removed, added := headLoop bI hI [], modified := modified },
          none)

/-! ## Command templates -/

namespace exec

/-- The fields of `exec.Cmd` that `main.go` sets or reads. -/
structure Cmd where
  Path : String
  Args : List String
  deriving DecidableEq, Repr

/-- The call `exec.Command(name, arg...)`: `Args` holds `name` followed by `arg`.  The
lookup that may replace `Path` by the resolved executable is not represented. -/
def Command (name : String) (arg : List String) : Cmd :=
  { Path := name, Args := name :: arg }

/-- The method `(*Cmd).String()`: the path followed by the arguments after the first. -/
def Cmd.String (c : Cmd) : String :=
  " ".intercalate (c.Path :: c.Args.drop 1)

end exec

/-- The Go struct `appendableArgCmd` (main.go, lines 39-42). -/
structure appendableArgCmd where
  Cmd : exec.Cmd
  baseCmd : List String
  deriving DecidableEq, Repr

/-- The function `newAppendableArgCmd` (main.go, lines 30-37). -/
def newAppendableArgCmd (name : String) (args : List String) : appendableArgCmd :=
  let cmd := exec.Command name args
  let base := [name]
  { Cmd := cmd, baseCmd := base ++ args }

/-- The method `addArg` (main.go, lines 44-47). -/
def appendableArgCmd.addArg (c : appendableArgCmd) (arg : String) : appendableArgCmd :=
  { c with Cmd := { c.Cmd with Args := c.Cmd.Args ++ [arg] } }

/-- The method `reset` (main.go, lines 49-51).  `none` is the panic of `c.baseCmd[0]` on an
empty `baseCmd`. -/
def appendableArgCmd.reset (c : appendableArgCmd) : Option appendableArgCmd :=
  match c.baseCmd with
  | [] => none
  | name :: rest => some { c with Cmd := exec.Command name rest }

/-- The package variable `cmdGitClean` (main.go, line 24). -/
def cmdGitClean : exec.Cmd :=
  exec.Command "git" ["clean", "-xdf"]

/-- The package variable `cmdGitRestore` as initialised (main.go, line 25). -/
def cmdGitRestore : appendableArgCmd :=
  newAppendableArgCmd "git" ["restore", "-SW", "--source"]

/-- What one call of `cleanAndRestore` leaves behind: the package variable
`cmdGitRestore`, the commands handed to `runCmd` during the call (oldest first), and the
returned error. -/
structure RestoreOutcome where
  cmdGitRestore : appendableArgCmd
  ran : List exec.Cmd
  err : Option error
  deriving DecidableEq, Repr

/-- The function `cleanAndRestore` (main.go, lines 146-163).  The external process is
represented by `runCmd`, which gives the error `runCmd` returns for a command; the first
argument after it is the current value of the package variable `cmdGitRestore`.  `none`
is a run-time panic. -/
def cleanAndRestore (runCmd : exec.Cmd → Option error) (g : appendableArgCmd)
    (hash : String) : Option RestoreOutcome :=
  match runCmd cmdGitClean with
  | some err =>
    some { cmdGitRestore := g, ran := [cmdGitClean],
           err := some ("error running " ++ cmdGitClean.String ++ ": " ++ err) }
  | none =>
    match g.reset with
    | none => none
    | some g1 =>
      let g2 := g1.addArg hash
      let g3 := g2.addArg "."
      match runCmd g3.Cmd with
      | some err =>
        some { cmdGitRestore := g3, ran := [cmdGitClean, g3.Cmd],
               err := some ("error running restore: " ++ err) }
      | none =>
        some { cmdGitRestore := g3, ran := [cmdGitClean, g3.Cmd], err := none }

/-- A sequence of calls of `cleanAndRestore`, each with its own process behaviour and
hash, threading the package variable `cmdGitRestore`; the result lists, call by call, the
commands handed to `runCmd`. -/
def cleanAndRestoreCalls :
    List ((exec.Cmd → Option error) × String) → appendableArgCmd →
      Option (List (List exec.Cmd))
  | [], _ => some []
  | (runCmd, hash) :: rest, g =>
    match cleanAndRestore runCmd g hash with
    | none => none
    | some out =>
      match cleanAndRestoreCalls rest out.cmdGitRestore with
      | none => none
      | some rans => some (out.ran :: rans)

/-! ## Sample resources -/

/-- A resource called `name` of kind `kind` whose decoded content is the single field
`spec = payload`. -/
def mkInfo (name kind payload : String) : resource.Info :=
  { Namespace := "default", Name := name, Source := "input",
    Object := { gvk := { Group := "", Version := "v1", Kind := kind },
                content := [("spec", payload)] },
    ResourceVersion := "" }

/-- A result whose resource list was obtained without error. -/
def okResult (l : List resource.Info) : resource.Result :=
  { infos := l, err := none }

/-! ## The scans -/

/-- The flag left by a scan tells whether some resource of the list has the name. -/
theorem scanNames_snd (name : String) :
    ∀ (l : List resource.Info) (i j : Nat),
      (scanNames name l i j).2 = decide (∃ h ∈ l, h.Name = name) := by
  intro l
  induction l with
  | nil => intro i j; simp [scanNames]
  | cons h rest ih =>
    intro i j
    by_cases hn : name = h.Name
    · simp [scanNames, hn]
    · have hn2 : ¬ h.Name = name := fun e => hn e.symm
      simp [scanNames, hn, hn2, ih]

/-- When a scan succeeds, the index it leaves is that of the first resource of the list
with the name. -/
theorem scanNames_fst (name : String) :
    ∀ (l : List resource.Info) (i j : Nat), (scanNames name l i j).2 = true →
      i ≤ (scanNames name l i j).1 ∧
      l[(scanNames name l i j).1 - i]? = l.find? (fun h => decide (h.Name = name)) ∧
      (l.find? (fun h => decide (h.Name = name))).isSome = true := by
  intro l
  induction l with
  | nil => intro i j hf; simp [scanNames] at hf
  | cons h rest ih =>
    intro i j hf
    by_cases hn : name = h.Name
    · simp [scanNames, hn]
    · have hn2 : ¬ h.Name = name := fun e => hn e.symm
      simp only [scanNames, hn, if_false] at hf ⊢
      obtain ⟨h1, h2, h3⟩ := ih (i + 1) i hf
      refine ⟨by omega, ?_, ?_⟩
      · have hk : (scanNames name rest (i + 1) i).1 - i
            = ((scanNames name rest (i + 1) i).1 - (i + 1)) + 1 := by omega
        rw [hk, List.getElem?_cons_succ, h2, List.find?_cons_of_neg _ (by simpa using hn2)]
      · rw [List.find?_cons_of_neg _ (by simpa using hn2)]; exact h3

/-- The first loop, in closed form. -/
theorem baseLoop_eq (hI : List resource.Info) :
    ∀ (bI removed : List resource.Info) (modified : List modification),
      baseLoop hI bI removed modified =
        some (removed ++ bI.filter (fun b => decide (∀ h ∈ hI, h.Name ≠ b.Name)),
          modified ++ bI.filterMap (fun b =>
            (hI.find? (fun h => decide (h.Name = b.Name))).bind
              (fun h => if h = b then none else some { before := b, after := h }))) := by
  intro bI
  induction bI with
  | nil => intro removed modified; simp [baseLoop]
  | cons b rest ih =>
    intro removed modified
    by_cases hex : ∃ h ∈ hI, h.Name = b.Name
    · have hf : (scanNames b.Name hI 0 0).2 = true := by
        rw [scanNames_snd]; simpa using hex
      obtain ⟨-, h2, h3⟩ := scanNames_fst b.Name hI 0 0 hf
      obtain ⟨h, hh⟩ := Option.isSome_iff_exists.mp h3
      have hall : ¬ ∀ h ∈ hI, h.Name ≠ b.Name := by
        intro hc; obtain ⟨x, hx, hxn⟩ := hex; exact hc x hx hxn
      rw [Nat.sub_zero, hh] at h2
      by_cases hb : h = b
      · simp [baseLoop, hf, h2, hh, hb, isModified, reflect.DeepEqual, ih, hall]
      · simp [baseLoop, hf, h2, hh, hb, isModified, reflect.DeepEqual, ih, hall]
    · have hf : (scanNames b.Name hI 0 0).2 = false := by
        rw [scanNames_snd]; simpa using hex
      have hall : ∀ h ∈ hI, h.Name ≠ b.Name := by
        intro h hh hn; exact hex ⟨h, hh, hn⟩
      have hnone : hI.find? (fun h => decide (h.Name = b.Name)) = none := by
        rw [List.find?_eq_none]; intro x hx; simpa using hall x hx
      have hfil : (b :: rest).filter (fun b => decide (∀ h ∈ hI, h.Name ≠ b.Name))
          = b :: rest.filter (fun b => decide (∀ h ∈ hI, h.Name ≠ b.Name)) :=
        List.filter_cons_of_pos (by simpa using hall)
      rw [hfil]
      simp [baseLoop, hf, ih, hnone]

/-- The second loop, in closed form. -/
theorem headLoop_eq (bI : List resource.Info) :
    ∀ (hI added : List resource.Info),
      headLoop bI hI added =
        added ++ hI.filter (fun h => decide (∀ b ∈ bI, b.Name ≠ h.Name)) := by
  intro hI
  induction hI with
  | nil => intro added; simp [headLoop]
  | cons h rest ih =>
    intro added
    by_cases hex : ∃ b ∈ bI, b.Name = h.Name
    · have hall : ¬ ∀ b ∈ bI, b.Name ≠ h.Name := by
        intro hc; obtain ⟨x, hx, hxn⟩ := hex; exact hc x hx hxn
      have hf : (scanNames h.Name bI 0 0).2 = true := by
        rw [scanNames_snd]; simpa using hex
      simp [headLoop, hf, ih, hall]
    · have hall : ∀ b ∈ bI, b.Name ≠ h.Name := by
        intro b hb hn; exact hex ⟨b, hb, hn⟩
      have hf : (scanNames h.Name bI 0 0).2 = false := by
        rw [scanNames_snd]; simpa using hex
      have hfil : (h :: rest).filter (fun h => decide (∀ b ∈ bI, b.Name ≠ h.Name))
          = h :: rest.filter (fun h => decide (∀ b ∈ bI, b.Name ≠ h.Name)) :=
        List.filter_cons_of_pos (by simpa using hall)
      rw [hfil]
      simp [headLoop, hf, ih]

/-- The summary returned when both resource lists are obtained, in closed form. -/
theorem buildSummary_eq (base head : resource.Result)
    (hb : base.err = none) (hh : head.err = none) :
    buildSummary base head =
      some (some
        { removed := base.infos.filter (fun b => decide (∀ h ∈ head.infos, h.Name ≠ b.Name)),
          added := head.infos.filter (fun h => decide (∀ b ∈ base.infos, b.Name ≠ h.Name)),
          modified := base.infos.filterMap (fun b =>
            (head.infos.find? (fun h => decide (h.Name = b.Name))).bind
              (fun h => if h = b then none else some { before := b, after := h })) },
        none) := by
  simp [buildSummary, resource.Result.Infos, hb, hh, baseLoop_eq, headLoop_eq]

/-- In a list whose names are pairwise distinct, the first resource with the name of a
member is that member. -/
theorem find?_name_of_nodup (l : List resource.Info)
    (hl : (l.map (fun r => r.Name)).Nodup) (r : resource.Info) (hr : r ∈ l) :
    l.find? (fun f => decide (f.Name = r.Name)) = some r := by
  have hsome : (l.find? (fun f => decide (f.Name = r.Name))).isSome = true := by
    rw [List.find?_isSome]; exact ⟨r, hr, by simp⟩
  obtain ⟨f, hf⟩ := Option.isSome_iff_exists.mp hsome
  have hname : f.Name = r.Name := by simpa using List.find?_some hf
  have hmem : f ∈ l := List.mem_of_find?_eq_some hf
  rw [hf, List.inj_on_of_nodup_map hl hmem hr hname]

/-! ## Classification -/

/-- C1: when both resource lists are obtained without error, `buildSummary` returns the
summary in which `removed` is the base resources, in base order, whose name is the name of
no head resource; `modified` is, in base order, the pair `(before = b, after = h)` for each
base resource `b` whose first same-named head resource `h` is not deeply equal to `b`; and
`added` is the head resources, in head order, whose name is the name of no base
resource. -/
theorem buildSummary_classifies (base head : resource.Result)
    (hb : base.err = none) (hh : head.err = none) :
    buildSummary base head =
      some (some
        { removed := base.infos.filter (fun b => decide (∀ h ∈ head.infos, h.Name ≠ b.Name)),
          added := head.infos.filter (fun h => decide (∀ b ∈ base.infos, b.Name ≠ h.Name)),
          modified := base.infos.filterMap (fun b =>
            (head.infos.find? (fun h => decide (h.Name = b.Name))).bind
              (fun h => if reflect.DeepEqual h b then none
                else some { before := b, after := h })) },
        none) := by
  rw [buildSummary_eq base head hb hh]
  simp [reflect.DeepEqual]

/-- The scenario of the specification for C1: base `[A/P1, B/P2]` against head
`[A/P1-modified, C/P3]` gives `removed = [B]`, `added = [C]` and
`modified = [(A/P1, A/P1-modified)]`. -/
theorem buildSummary_classifies_witness :
    (okResult [mkInfo "A" "X" "P1", mkInfo "B" "Y" "P2"]).err = none ∧
    (okResult [mkInfo "A" "X" "P1-modified", mkInfo "C" "Z" "P3"]).err = none ∧
    buildSummary (okResult [mkInfo "A" "X" "P1", mkInfo "B" "Y" "P2"])
        (okResult [mkInfo "A" "X" "P1-modified", mkInfo "C" "Z" "P3"]) =
      some (some { removed := [mkInfo "B" "Y" "P2"],
                   added := [mkInfo "C" "Z" "P3"],
                   modified := [{ before := mkInfo "A" "X" "P1",
                                  after := mkInfo "A" "X" "P1-modified" }] }, none) :=
  ⟨rfl, rfl,
    (buildSummary_classifies (okResult [mkInfo "A" "X" "P1", mkInfo "B" "Y" "P2"])
      (okResult [mkInfo "A" "X" "P1-modified", mkInfo "C" "Z" "P3"]) rfl rfl).trans
      (by decide)⟩

/-! ## Diffing a collection against itself -/

/-- C4, as stated, fails: the collection `[A (kind X), A (kind Y)]`, in which two resources
of different kinds share the name `A`, diffed against itself does not give three empty
lists; the second resource is matched with the first and reported as modified. -/
theorem buildSummary_self_counterexample :
    buildSummary (okResult [mkInfo "A" "X" "P1", mkInfo "A" "Y" "P2"])
        (okResult [mkInfo "A" "X" "P1", mkInfo "A" "Y" "P2"]) =
      some (some { removed := [], added := [],
                   modified := [{ before := mkInfo "A" "Y" "P2",
                                  after := mkInfo "A" "X" "P1" }] }, none) ∧
    ¬ ∃ s, buildSummary (okResult [mkInfo "A" "X" "P1", mkInfo "A" "Y" "P2"])
        (okResult [mkInfo "A" "X" "P1", mkInfo "A" "Y" "P2"]) = some (some s, none) ∧
      s.added = [] ∧ s.removed = [] ∧ s.modified = [] := by
  have h : buildSummary (okResult [mkInfo "A" "X" "P1", mkInfo "A" "Y" "P2"])
        (okResult [mkInfo "A" "X" "P1", mkInfo "A" "Y" "P2"]) =
      some (some { removed := [], added := [],
                   modified := [{ before := mkInfo "A" "Y" "P2",
                                  after := mkInfo "A" "X" "P1" }] }, none) := by decide
  refine ⟨h, ?_⟩
  rintro ⟨s, hs, -, -, hm⟩
  rw [h] at hs
  simp only [Option.some.injEq, Prod.mk.injEq, and_true] at hs
  rw [← hs] at hm
  simp at hm

/-- C4, amended: for every collection `c` whose resource list is obtained,
`buildSummary(c, c)` returns a summary with `added` and `removed` empty, whose `modified`
holds, in order, the pair `(before = r, after = f)` for each resource `r` of `c` that
differs from the first resource `f` of `c` with the name of `r`.  So `modified` is empty
exactly when every resource of `c` equals the first resource of `c` with its name, and in
particular when the names in `c` are pairwise distinct. -/
theorem buildSummary_self (c : resource.Result) (hc : c.err = none) :
    ∃ s, buildSummary c c = some (some s, none) ∧ s.added = [] ∧ s.removed = [] ∧
      s.modified = c.infos.filterMap (fun r =>
        (c.infos.find? (fun f => decide (f.Name = r.Name))).bind
          (fun f => if reflect.DeepEqual f r then none
            else some { before := r, after := f })) ∧
      (s.modified = [] ↔
        ∀ r ∈ c.infos, c.infos.find? (fun f => decide (f.Name = r.Name)) = some r) ∧
      ((c.infos.map (fun r => r.Name)).Nodup → s.modified = []) := by
  have hno : ∀ r ∈ c.infos, ¬ ∀ h ∈ c.infos, h.Name ≠ r.Name := by
    intro r hr hall; exact hall r hr rfl
  have hiff : c.infos.filterMap (fun r =>
        (c.infos.find? (fun f => decide (f.Name = r.Name))).bind
          (fun f => if f = r then none else some ({ before := r, after := f } : modification)))
        = [] ↔
      ∀ r ∈ c.infos, c.infos.find? (fun f => decide (f.Name = r.Name)) = some r := by
    rw [List.filterMap_eq_nil_iff]
    constructor
    · intro h r hr
      have hsome : (c.infos.find? (fun f => decide (f.Name = r.Name))).isSome = true := by
        rw [List.find?_isSome]; exact ⟨r, hr, by simp⟩
      obtain ⟨f, hf⟩ := Option.isSome_iff_exists.mp hsome
      have h1 := h r hr
      rw [hf] at h1 ⊢
      by_cases hfr : f = r
      · rw [hfr]
      · simp [hfr] at h1
    · intro h r hr
      rw [h r hr]; simp
  refine ⟨_, buildSummary_eq c c hc hc, ?_, ?_, ?_, ?_, ?_⟩
  · rw [List.filter_eq_nil_iff]; intro r hr; simpa using hno r hr
  · rw [List.filter_eq_nil_iff]; intro r hr; simpa using hno r hr
  · simp [reflect.DeepEqual]
  · exact hiff
  · intro hnd
    exact hiff.mpr (fun r hr => find?_name_of_nodup c.infos hnd r hr)

/-- The scenario of the specification for C4: the single resource `A/P1` diffed against
itself gives three empty lists. -/
theorem buildSummary_self_witness :
    (okResult [mkInfo "A" "X" "P1"]).err = none ∧
    ∃ s, buildSummary (okResult [mkInfo "A" "X" "P1"]) (okResult [mkInfo "A" "X" "P1"]) =
        some (some s, none) ∧ s.added = [] ∧ s.removed = [] ∧ s.modified = [] := by
  obtain ⟨s, h1, h2, h3, -, -, h6⟩ := buildSummary_self (okResult [mkInfo "A" "X" "P1"]) rfl
  exact ⟨rfl, s, h1, h2, h3, h6 (by decide)⟩

/-! ## Disjoint names -/

/-- C5: when no name of a base resource is the name of a head resource, `buildSummary`
returns `removed` = all of base in base order, `added` = all of head in head order and
`modified` empty; in particular a resource `r` against a copy of `r` under another name
`n` is reported as the removal of `r` plus the addition of the copy, and no
modification. -/
theorem buildSummary_disjoint (base head : resource.Result)
    (hb : base.err = none) (hh : head.err = none)
    (hdisj : ∀ b ∈ base.infos, ∀ h ∈ head.infos, b.Name ≠ h.Name) :
    buildSummary base head =
        some (some { removed := base.infos, added := head.infos, modified := [] }, none) ∧
    ∀ (r : resource.Info) (n : String), n ≠ r.Name →
      buildSummary (okResult [r]) (okResult [{ r with Name := n }]) =
        some (some { removed := [r], added := [{ r with Name := n }], modified := [] },
          none) := by
  have main : ∀ (bI hI : List resource.Info),
      (∀ b ∈ bI, ∀ h ∈ hI, b.Name ≠ h.Name) →
      buildSummary (okResult bI) (okResult hI) =
        some (some { removed := bI, added := hI, modified := [] }, none) := by
    intro bI hI hd
    rw [buildSummary_eq (okResult bI) (okResult hI) rfl rfl]
    have h1 : bI.filter (fun b => decide (∀ h ∈ hI, h.Name ≠ b.Name)) = bI := by
      rw [List.filter_eq_self]; intro b hbm
      simpa using fun h hhm e => hd b hbm h hhm e.symm
    have h2 : hI.filter (fun h => decide (∀ b ∈ bI, b.Name ≠ h.Name)) = hI := by
      rw [List.filter_eq_self]; intro h hhm
      simpa using fun b hbm e => hd b hbm h hhm e
    have h3 : bI.filterMap (fun b =>
        (hI.find? (fun h => decide (h.Name = b.Name))).bind
          (fun h => if h = b then none else some ({ before := b, after := h } : modification)))
        = [] := by
      rw [List.filterMap_eq_nil_iff]; intro b hbm
      have hnone : hI.find? (fun h => decide (h.Name = b.Name)) = none := by
        rw [List.find?_eq_none]; intro h hhm
        simpa using fun e => hd b hbm h hhm e.symm
      rw [hnone]; rfl
    simp only [okResult]
    rw [h1, h2, h3]
  constructor
  · have hbase : base = okResult base.infos := by
      cases base; simp only [okResult] at *; simp [hb]
    have hhead : head = okResult head.infos := by
      cases head; simp only [okResult] at *; simp [hh]
    rw [hbase, hhead]
    exact main base.infos head.infos hdisj
  · intro r n hn
    apply main
    intro b hbm h hhm
    simp only [List.mem_singleton] at hbm hhm
    subst hbm; subst hhm
    exact fun e => hn e.symm

/-- The renaming scenario for C5: `A/P1` against the same resource called `A2`. -/
theorem buildSummary_disjoint_witness :
    (okResult [mkInfo "A" "X" "P1"]).err = none ∧
    (okResult [mkInfo "A2" "X" "P1"]).err = none ∧
    buildSummary (okResult [mkInfo "A" "X" "P1"]) (okResult [mkInfo "A2" "X" "P1"]) =
      some (some { removed := [mkInfo "A" "X" "P1"], added := [mkInfo "A2" "X" "P1"],
                   modified := [] }, none) :=
  ⟨rfl, rfl,
    (buildSummary_disjoint (okResult [mkInfo "A" "X" "P1"]) (okResult [mkInfo "A2" "X" "P1"])
      rfl rfl (by decide)).1⟩

/-! ## Identity is the name -/

/-- C6: the kind is not part of the identity.  If `b` is a base resource and the first
head resource `h` with the name of `b` has another group/version/kind, then the pair
`(before = b, after = h)` is in `modified`, `b` is not in `removed` and `h` is not in
`added`. -/
theorem buildSummary_kind_not_identity (base head : resource.Result)
    (hb : base.err = none) (hh : head.err = none) (b h : resource.Info)
    (hmem : b ∈ base.infos)
    (hfirst : head.infos.find? (fun x => decide (x.Name = b.Name)) = some h)
    (hgvk : h.Object.gvk ≠ b.Object.gvk) :
    ∃ s, buildSummary base head = some (some s, none) ∧
      ({ before := b, after := h } : modification) ∈ s.modified ∧
      b ∉ s.removed ∧ h ∉ s.added := by
  have hne : h ≠ b := by
    intro e; exact hgvk (by rw [e])
  have hname : h.Name = b.Name := by simpa using List.find?_some hfirst
  have hhmem : h ∈ head.infos := List.mem_of_find?_eq_some hfirst
  refine ⟨_, buildSummary_eq base head hb hh, ?_, ?_, ?_⟩
  · simp only [List.mem_filterMap]
    exact ⟨b, hmem, by simp [hfirst, hne]⟩
  · simp only [List.mem_filter, not_and]
    intro _ hall
    exact (of_decide_eq_true hall) h hhmem hname
  · simp only [List.mem_filter, not_and]
    intro _ hall
    exact (of_decide_eq_true hall) b hmem hname.symm

/-- An instance of C6: `A` of kind `X` against `A` of kind `Y` with the same content. -/
theorem buildSummary_kind_not_identity_witness :
    ∃ s, buildSummary (okResult [mkInfo "A" "X" "P1"]) (okResult [mkInfo "A" "Y" "P1"]) =
        some (some s, none) ∧
      ({ before := mkInfo "A" "X" "P1", after := mkInfo "A" "Y" "P1" } : modification)
        ∈ s.modified ∧
      mkInfo "A" "X" "P1" ∉ s.removed ∧ mkInfo "A" "Y" "P1" ∉ s.added :=
  buildSummary_kind_not_identity (okResult [mkInfo "A" "X" "P1"])
    (okResult [mkInfo "A" "Y" "P1"]) rfl rfl (mkInfo "A" "X" "P1") (mkInfo "A" "Y" "P1")
    (by decide) (by decide) (by decide)

/-! ## Errors -/

/-- C7: `buildSummary` never panics and never returns a summary together with an error.
It returns an error, and then no summary, exactly when `Infos()` fails on base or on
head, base being looked at first; when both lists are obtained it returns the complete
classification and no error, whatever the lists hold. -/
theorem buildSummary_error_iff (base head : resource.Result) :
    (buildSummary base head =
      match base.err, head.err with
      | some e, _ => some (none, some ("unable to get manifest info from base result: " ++ e))
      | none, some e =>
        some (none, some ("unable to get manifest info from head result: " ++ e))
      | none, none =>
        some (some
          { removed :=
              base.infos.filter (fun b => decide (∀ h ∈ head.infos, h.Name ≠ b.Name)),
            added :=
              head.infos.filter (fun h => decide (∀ b ∈ base.infos, b.Name ≠ h.Name)),
            modified := base.infos.filterMap (fun b =>
              (head.infos.find? (fun h => decide (h.Name = b.Name))).bind
                (fun h => if reflect.DeepEqual h b then none
                  else some { before := b, after := h })) },
          none)) ∧
    ((∃ e, buildSummary base head = some (none, some e)) ↔
      (base.err ≠ none ∨ head.err ≠ none)) ∧
    ((∃ s, buildSummary base head = some (some s, none)) ↔
      (base.err = none ∧ head.err = none)) ∧
    (∀ s e, buildSummary base head ≠ some (some s, some e)) ∧
    buildSummary base head ≠ some (none, none) ∧
    buildSummary base head ≠ none := by
  cases hbe : base.err with
  | some e =>
    have h : buildSummary base head =
        some (none, some ("unable to get manifest info from base result: " ++ e)) := by
      simp [buildSummary, resource.Result.Infos, hbe]
    simp [h]
  | none =>
    cases hhe : head.err with
    | some e =>
      have h : buildSummary base head =
          some (none, some ("unable to get manifest info from head result: " ++ e)) := by
        simp [buildSummary, resource.Result.Infos, hbe, hhe]
      simp [h]
    | none =>
      rw [buildSummary_eq base head hbe hhe]
      simp [reflect.DeepEqual]

/-! ## Entries of `modified` -/

/-- The entry the first loop makes for the base resource `a`, read backwards. -/
theorem entry_eq_some (hI : List resource.Info) (a : resource.Info) (m : modification) :
    ((hI.find? (fun h => decide (h.Name = a.Name))).bind
        (fun h => if h = a then none else some ({ before := a, after := h } : modification))
      = some m) ↔
    (m.before = a ∧ hI.find? (fun h => decide (h.Name = a.Name)) = some m.after ∧
      m.after ≠ a) := by
  obtain ⟨mb, ma⟩ := m
  cases hf : hI.find? (fun h => decide (h.Name = a.Name)) with
  | none => simp
  | some h =>
    by_cases hha : h = a
    · subst hha
      simp only [Option.some_bind, if_true, Option.some.injEq, false_iff, not_and,
        not_not, reduceCtorEq]
      intro _ e; exact e.symm
    · simp only [Option.some_bind, hha, if_false, Option.some.injEq, modification.mk.injEq]
      constructor
      · rintro ⟨rfl, rfl⟩; exact ⟨rfl, rfl, hha⟩
      · rintro ⟨rfl, rfl, -⟩; exact ⟨rfl, rfl⟩

/-- How many entries of `modified` have `b` as their before side. -/
theorem countP_before (hI bI : List resource.Info) (b : resource.Info) :
    (bI.filterMap (fun a =>
        (hI.find? (fun h => decide (h.Name = a.Name))).bind
          (fun h => if h = a then none
            else some ({ before := a, after := h } : modification)))).countP
        (fun m => decide (m.before = b)) =
      if (∃ h, hI.find? (fun h => decide (h.Name = b.Name)) = some h ∧ h ≠ b)
        then bI.count b else 0 := by
  rw [List.countP_filterMap]
  split
  · rename_i hex
    obtain ⟨h, hf, hne⟩ := hex
    rw [List.count_eq_countP]
    apply List.countP_congr
    intro a _
    by_cases hab : a = b
    · subst hab; simp [hf, hne]
    · cases hfa : hI.find? (fun h => decide (h.Name = a.Name)) with
      | none => simp [hab]
      | some x =>
        by_cases hxa : x = a
        · simp [hxa, hab]
        · simp [hxa, hab]
  · rename_i hnex
    rw [List.countP_eq_zero]
    intro a _
    by_cases hab : a = b
    · subst hab
      cases hfa : hI.find? (fun h => decide (h.Name = a.Name)) with
      | none => simp
      | some x =>
        have hxa : x = a := by
          by_contra hne; exact hnex ⟨x, hfa, hne⟩
        simp [hxa]
    · cases hfa : hI.find? (fun h => decide (h.Name = a.Name)) with
      | none => simp
      | some x =>
        by_cases hxa : x = a
        · simp [hxa]
        · simp [hxa, hab]

/-- How many entries of `modified` have `h` as their after side. -/
theorem countP_after (hI bI : List resource.Info) (h : resource.Info) :
    (bI.filterMap (fun a =>
        (hI.find? (fun x => decide (x.Name = a.Name))).bind
          (fun x => if x = a then none
            else some ({ before := a, after := x } : modification)))).countP
        (fun m => decide (m.after = h)) =
      if hI.find? (fun x => decide (x.Name = h.Name)) = some h
        then bI.countP (fun a => decide (a.Name = h.Name ∧ a ≠ h)) else 0 := by
  rw [List.countP_filterMap]
  split
  · rename_i hfh
    apply List.countP_congr
    intro a _
    by_cases han : a.Name = h.Name
    · rw [han, hfh]
      by_cases hha : h = a
      · simp [hha]
      · have hah : ¬ a = h := fun e => hha e.symm
        simp [hha, hah, han]
    · cases hfa : hI.find? (fun x => decide (x.Name = a.Name)) with
      | none => simp [han]
      | some x =>
        have hxn : x.Name = a.Name := by simpa using List.find?_some hfa
        have hxh : ¬ x = h := by
          intro e; rw [e] at hxn; exact han hxn.symm
        by_cases hxa : x = a
        · simp [hxa, han]
        · simp [hxa, han, hxh]
  · rename_i hfh
    rw [List.countP_eq_zero]
    intro a _
    cases hfa : hI.find? (fun x => decide (x.Name = a.Name)) with
    | none => simp
    | some x =>
      have hxn : x.Name = a.Name := by simpa using List.find?_some hfa
      have hxh : ¬ x = h := by
        intro e
        rw [e] at hxn hfa
        rw [← hxn] at hfa
        exact hfh hfa
      by_cases hxa : x = a
      · simp [hxa]
      · simp [hxa, hxh]

/-- In a list whose names are pairwise distinct, a member occurs once. -/
theorem count_eq_one_of_nodup_names (l : List resource.Info)
    (hl : (l.map (fun r => r.Name)).Nodup) (r : resource.Info) (hr : r ∈ l) :
    l.count r = 1 :=
  List.count_eq_one_of_mem (List.Nodup.of_map _ hl) hr

/-- Membership in `modified`: the before side is a base resource, the after side is the
first head resource with its name, and the two differ. -/
theorem mem_modified_iff (hI bI : List resource.Info) (m : modification) :
    m ∈ bI.filterMap (fun a =>
        (hI.find? (fun h => decide (h.Name = a.Name))).bind
          (fun h => if h = a then none
            else some ({ before := a, after := h } : modification))) ↔
      (m.before ∈ bI ∧
        hI.find? (fun h => decide (h.Name = m.before.Name)) = some m.after ∧
        m.after ≠ m.before) := by
  rw [List.mem_filterMap]
  constructor
  · rintro ⟨a, ha, hfa⟩
    obtain ⟨h1, h2, h3⟩ := (entry_eq_some hI a m).mp hfa
    subst h1
    exact ⟨ha, h2, h3⟩
  · rintro ⟨h1, h2, h3⟩
    exact ⟨m.before, h1, (entry_eq_some hI m.before m).mpr ⟨rfl, h2, h3⟩⟩

/-! ## Classification of the base side -/

/-- C2, as stated, fails: with base `[A/P1 (kind X)]` and head
`[A/P2 (kind Y), A/P1 (kind X)]` the base resource is unchanged in the sense of the claim
(head holds a resource with the same name and an equal payload), yet it is the before side
of a `modified` entry, because only the first head resource called `A` is compared. -/
theorem buildSummary_base_side_counterexample :
    buildSummary (okResult [mkInfo "A" "X" "P1"])
        (okResult [mkInfo "A" "Y" "P2", mkInfo "A" "X" "P1"]) =
      some (some { removed := [], added := [],
                   modified := [{ before := mkInfo "A" "X" "P1",
                                  after := mkInfo "A" "Y" "P2" }] }, none) ∧
    ¬ (∀ s, buildSummary (okResult [mkInfo "A" "X" "P1"])
          (okResult [mkInfo "A" "Y" "P2", mkInfo "A" "X" "P1"]) = some (some s, none) →
        ∀ b ∈ (okResult [mkInfo "A" "X" "P1"]).infos,
          (∃ h ∈ (okResult [mkInfo "A" "Y" "P2", mkInfo "A" "X" "P1"]).infos,
            h.Name = b.Name ∧ reflect.DeepEqual h b = true) →
          b ∉ s.removed ∧ ∀ m ∈ s.modified, m.before ≠ b) := by
  have hv : buildSummary (okResult [mkInfo "A" "X" "P1"])
        (okResult [mkInfo "A" "Y" "P2", mkInfo "A" "X" "P1"]) =
      some (some { removed := [], added := [],
                   modified := [{ before := mkInfo "A" "X" "P1",
                                  after := mkInfo "A" "Y" "P2" }] }, none) := by decide
  refine ⟨hv, ?_⟩
  intro hall
  have h1 := hall _ hv (mkInfo "A" "X" "P1") (by decide)
    ⟨mkInfo "A" "X" "P1", by decide, rfl, by decide⟩
  exact h1.2 { before := mkInfo "A" "X" "P1", after := mkInfo "A" "Y" "P2" }
    (List.mem_singleton.mpr rfl) rfl

/-- C2, amended: when both resource lists are obtained, every base resource `b` is
classified by the first head resource with the name of `b`.  If there is none, `b` is in
`removed` as many times as it occurs in base and is the before side of no `modified`
entry.  If it is `h` and `h` is not deeply equal to `b`, then `b` is not in `removed` and
is the before side of as many `modified` entries as it occurs in base, each with `h` as
after side.  If it is deeply equal to `b`, then `b` is in neither list.  When moreover the
names within base and within head are pairwise distinct, a base resource for which head
holds a resource with the same name and equal to it is in neither list, and every other
base resource is either once in `removed` and in no entry, or the before side of exactly
one entry and not in `removed`. -/
theorem buildSummary_base_side (base head : resource.Result)
    (hb : base.err = none) (hh : head.err = none) :
    ∃ s, buildSummary base head = some (some s, none) ∧
      (∀ b ∈ base.infos,
        (head.infos.find? (fun h => decide (h.Name = b.Name)) = none →
          s.removed.count b = base.infos.count b ∧ ∀ m ∈ s.modified, m.before ≠ b) ∧
        (∀ h, head.infos.find? (fun h => decide (h.Name = b.Name)) = some h →
          reflect.DeepEqual h b = false →
            b ∉ s.removed ∧
            s.modified.countP (fun m => decide (m.before = b)) = base.infos.count b ∧
            ∀ m ∈ s.modified, m.before = b → m.after = h) ∧
        (∀ h, head.infos.find? (fun h => decide (h.Name = b.Name)) = some h →
          reflect.DeepEqual h b = true →
            b ∉ s.removed ∧ ∀ m ∈ s.modified, m.before ≠ b)) ∧
      ((base.infos.map (fun r => r.Name)).Nodup →
        (head.infos.map (fun r => r.Name)).Nodup →
        ∀ b ∈ base.infos,
          ((∃ h ∈ head.infos, h.Name = b.Name ∧ reflect.DeepEqual h b = true) →
            b ∉ s.removed ∧ ∀ m ∈ s.modified, m.before ≠ b) ∧
          (¬ (∃ h ∈ head.infos, h.Name = b.Name ∧ reflect.DeepEqual h b = true) →
            (s.removed.count b = 1 ∧ ∀ m ∈ s.modified, m.before ≠ b) ∨
            (b ∉ s.removed ∧ s.modified.countP (fun m => decide (m.before = b)) = 1))) := by
  -- the three cases, for the closed form of the summary
  have hnone : ∀ b, head.infos.find? (fun h => decide (h.Name = b.Name)) = none →
      (base.infos.filter (fun b => decide (∀ h ∈ head.infos, h.Name ≠ b.Name))).count b
          = base.infos.count b ∧
      ∀ m ∈ base.infos.filterMap (fun a =>
          (head.infos.find? (fun h => decide (h.Name = a.Name))).bind
            (fun h => if h = a then none
              else some ({ before := a, after := h } : modification))),
        m.before ≠ b := by
    intro b hf
    constructor
    · apply List.count_filter
      rw [List.find?_eq_none] at hf
      simpa using hf
    · intro m hm hmb
      obtain ⟨-, h2, -⟩ := (mem_modified_iff _ _ m).mp hm
      rw [hmb, hf] at h2
      exact Option.noConfusion h2
  have hsome : ∀ b h, head.infos.find? (fun h => decide (h.Name = b.Name)) = some h →
      b ∉ base.infos.filter (fun b => decide (∀ h ∈ head.infos, h.Name ≠ b.Name)) := by
    intro b h hf
    simp only [List.mem_filter, not_and]
    intro _ hall
    exact (of_decide_eq_true hall) h (List.mem_of_find?_eq_some hf)
      (by simpa using List.find?_some hf)
  have hdiff : ∀ b h, head.infos.find? (fun h => decide (h.Name = b.Name)) = some h →
      h ≠ b →
      (base.infos.filterMap (fun a =>
          (head.infos.find? (fun h => decide (h.Name = a.Name))).bind
            (fun h => if h = a then none
              else some ({ before := a, after := h } : modification)))).countP
          (fun m => decide (m.before = b)) = base.infos.count b ∧
      ∀ m ∈ base.infos.filterMap (fun a =>
          (head.infos.find? (fun h => decide (h.Name = a.Name))).bind
            (fun h => if h = a then none
              else some ({ before := a, after := h } : modification))),
        m.before = b → m.after = h := by
    intro b h hf hne
    constructor
    · rw [countP_before, if_pos ⟨h, hf, hne⟩]
    · intro m hm hmb
      obtain ⟨-, h2, -⟩ := (mem_modified_iff _ _ m).mp hm
      rw [hmb, hf] at h2
      exact (Option.some.inj h2).symm
  have hsame : ∀ b, head.infos.find? (fun h => decide (h.Name = b.Name)) = some b →
      ∀ m ∈ base.infos.filterMap (fun a =>
          (head.infos.find? (fun h => decide (h.Name = a.Name))).bind
            (fun h => if h = a then none
              else some ({ before := a, after := h } : modification))),
        m.before ≠ b := by
    intro b hf m hm hmb
    obtain ⟨-, h2, h3⟩ := (mem_modified_iff _ _ m).mp hm
    rw [hmb, hf] at h2
    exact h3 ((Option.some.inj h2).symm.trans hmb.symm)
  refine ⟨_, buildSummary_eq base head hb hh, ?_, ?_⟩
  · intro b _
    refine ⟨hnone b, ?_, ?_⟩
    · intro h hf hde
      have hne : h ≠ b := by simpa [reflect.DeepEqual] using hde
      exact ⟨hsome b h hf, (hdiff b h hf hne).1, (hdiff b h hf hne).2⟩
    · intro h hf hde
      have he : h = b := by simpa [reflect.DeepEqual] using hde
      subst he
      exact ⟨hsome h h hf, hsame h hf⟩
  · intro hnb hnh b hbm
    have hc : base.infos.count b = 1 := count_eq_one_of_nodup_names _ hnb b hbm
    constructor
    · rintro ⟨h, hhm, hname, hde⟩
      have he : h = b := by simpa [reflect.DeepEqual] using hde
      subst he
      have hf := find?_name_of_nodup head.infos hnh h hhm
      exact ⟨hsome h h hf, hsame h hf⟩
    · intro hun
      cases hf : head.infos.find? (fun h => decide (h.Name = b.Name)) with
      | none =>
        left
        exact ⟨(hnone b hf).1.trans hc, (hnone b hf).2⟩
      | some h =>
        right
        have hne : h ≠ b := by
          intro e
          apply hun
          refine ⟨h, List.mem_of_find?_eq_some hf, by simpa using List.find?_some hf, ?_⟩
          simp [reflect.DeepEqual, e]
        exact ⟨hsome b h hf, (hdiff b h hf hne).1.trans hc⟩

/-- An instance of C2 on the scenario of the specification: base `[A/P1, B/P2]` against
head `[A/P1-modified, C/P3]`; `B` is once in `removed`, `A/P1` is the before side of one
entry. -/
theorem buildSummary_base_side_witness :
    ∃ s, buildSummary (okResult [mkInfo "A" "X" "P1", mkInfo "B" "Y" "P2"])
        (okResult [mkInfo "A" "X" "P1-modified", mkInfo "C" "Z" "P3"]) =
          some (some s, none) ∧
      s.removed.count (mkInfo "B" "Y" "P2") = 1 ∧
      mkInfo "A" "X" "P1" ∉ s.removed ∧
      s.modified.countP (fun m => decide (m.before = mkInfo "A" "X" "P1")) = 1 := by
  obtain ⟨s, h1, h2, -⟩ :=
    buildSummary_base_side (okResult [mkInfo "A" "X" "P1", mkInfo "B" "Y" "P2"])
      (okResult [mkInfo "A" "X" "P1-modified", mkInfo "C" "Z" "P3"]) rfl rfl
  have hB := (h2 (mkInfo "B" "Y" "P2") (by decide)).1 (by decide)
  have hA := (h2 (mkInfo "A" "X" "P1") (by decide)).2.1 (mkInfo "A" "X" "P1-modified")
    (by decide) (by decide)
  exact ⟨s, h1, hB.1.trans (by decide), hA.1, hA.2.1.trans (by decide)⟩

/-! ## Classification of the head side -/

/-- C3, as stated, fails: with base `[A/P1 (kind X)]` and head
`[A/P2 (kind X), A/P3 (kind Y)]` the head resource `A/P3` is changed (base holds no
resource equal to it), yet it is neither in `added` nor the after side of a `modified`
entry, because only the first head resource called `A` is ever matched. -/
theorem buildSummary_head_side_counterexample :
    buildSummary (okResult [mkInfo "A" "X" "P1"])
        (okResult [mkInfo "A" "X" "P2", mkInfo "A" "Y" "P3"]) =
      some (some { removed := [], added := [],
                   modified := [{ before := mkInfo "A" "X" "P1",
                                  after := mkInfo "A" "X" "P2" }] }, none) ∧
    ¬ (∀ s, buildSummary (okResult [mkInfo "A" "X" "P1"])
          (okResult [mkInfo "A" "X" "P2", mkInfo "A" "Y" "P3"]) = some (some s, none) →
        ∀ h ∈ (okResult [mkInfo "A" "X" "P2", mkInfo "A" "Y" "P3"]).infos,
          ¬ (∃ b ∈ (okResult [mkInfo "A" "X" "P1"]).infos,
            b.Name = h.Name ∧ reflect.DeepEqual b h = true) →
          (h ∈ s.added ∨ ∃ m ∈ s.modified, m.after = h)) := by
  have hv : buildSummary (okResult [mkInfo "A" "X" "P1"])
        (okResult [mkInfo "A" "X" "P2", mkInfo "A" "Y" "P3"]) =
      some (some { removed := [], added := [],
                   modified := [{ before := mkInfo "A" "X" "P1",
                                  after := mkInfo "A" "X" "P2" }] }, none) := by decide
  refine ⟨hv, ?_⟩
  intro hall
  have h1 := hall _ hv (mkInfo "A" "Y" "P3") (by decide) (by decide)
  revert h1
  decide

/-- C3, amended: when both resource lists are obtained, every head resource `h` is
classified by name.  If no base resource has the name of `h`, then `h` is in `added` as
many times as it occurs in head and is the after side of no `modified` entry.  If some
base resource has the name of `h`, then `h` is not in `added`, and it is the after side of
one `modified` entry for each base resource that has its name and is not deeply equal to
it, provided `h` is the first head resource with its name; otherwise it is the after side
of none.  When moreover the names within base and within head are pairwise distinct, a
head resource for which base holds a resource with the same name and equal to it is in
neither list, and every other head resource is either once in `added` and in no entry, or
the after side of exactly one entry and not in `added`. -/
theorem buildSummary_head_side (base head : resource.Result)
    (hb : base.err = none) (hh : head.err = none) :
    ∃ s, buildSummary base head = some (some s, none) ∧
      (∀ h ∈ head.infos,
        ((∀ b ∈ base.infos, b.Name ≠ h.Name) →
          s.added.count h = head.infos.count h ∧ ∀ m ∈ s.modified, m.after ≠ h) ∧
        ((∃ b ∈ base.infos, b.Name = h.Name) →
          h ∉ s.added ∧
          s.modified.countP (fun m => decide (m.after = h)) =
            if head.infos.find? (fun x => decide (x.Name = h.Name)) = some h
              then base.infos.countP (fun b => decide (b.Name = h.Name ∧ b ≠ h))
              else 0)) ∧
      ((base.infos.map (fun r => r.Name)).Nodup →
        (head.infos.map (fun r => r.Name)).Nodup →
        ∀ h ∈ head.infos,
          ((∃ b ∈ base.infos, b.Name = h.Name ∧ reflect.DeepEqual b h = true) →
            h ∉ s.added ∧ ∀ m ∈ s.modified, m.after ≠ h) ∧
          (¬ (∃ b ∈ base.infos, b.Name = h.Name ∧ reflect.DeepEqual b h = true) →
            (s.added.count h = 1 ∧ ∀ m ∈ s.modified, m.after ≠ h) ∨
            (h ∉ s.added ∧ s.modified.countP (fun m => decide (m.after = h)) = 1))) := by
  have hfresh : ∀ h, (∀ b ∈ base.infos, b.Name ≠ h.Name) →
      (head.infos.filter (fun h => decide (∀ b ∈ base.infos, b.Name ≠ h.Name))).count h
          = head.infos.count h ∧
      ∀ m ∈ base.infos.filterMap (fun a =>
          (head.infos.find? (fun h => decide (h.Name = a.Name))).bind
            (fun h => if h = a then none
              else some ({ before := a, after := h } : modification))),
        m.after ≠ h := by
    intro h hall
    constructor
    · apply List.count_filter
      simpa using hall
    · intro m hm hma
      obtain ⟨h1, h2, -⟩ := (mem_modified_iff _ _ m).mp hm
      have hn : m.after.Name = m.before.Name := by simpa using List.find?_some h2
      rw [hma] at hn
      exact hall m.before h1 hn.symm
  have hknown : ∀ h, (∃ b ∈ base.infos, b.Name = h.Name) →
      h ∉ head.infos.filter (fun h => decide (∀ b ∈ base.infos, b.Name ≠ h.Name)) := by
    rintro h ⟨b, hbm, hname⟩
    simp only [List.mem_filter, not_and]
    intro _ hall
    exact (of_decide_eq_true hall) b hbm hname
  have hzero : ∀ h,
      (base.infos.filterMap (fun a =>
          (head.infos.find? (fun h => decide (h.Name = a.Name))).bind
            (fun h => if h = a then none
              else some ({ before := a, after := h } : modification)))).countP
          (fun m => decide (m.after = h)) = 0 →
      ∀ m ∈ base.infos.filterMap (fun a =>
          (head.infos.find? (fun h => decide (h.Name = a.Name))).bind
            (fun h => if h = a then none
              else some ({ before := a, after := h } : modification))),
        m.after ≠ h := by
    intro h hz m hm
    rw [List.countP_eq_zero] at hz
    simpa using hz m hm
  refine ⟨_, buildSummary_eq base head hb hh, ?_, ?_⟩
  · intro h _
    exact ⟨hfresh h, fun hex => ⟨hknown h hex, countP_after _ _ h⟩⟩
  · intro hnb hnh h hhm
    have hf := find?_name_of_nodup head.infos hnh h hhm
    have hc : head.infos.count h = 1 := count_eq_one_of_nodup_names _ hnh h hhm
    constructor
    · rintro ⟨b, hbm, hname, hde⟩
      have he : b = h := by simpa [reflect.DeepEqual] using hde
      subst he
      refine ⟨hknown b ⟨b, hbm, rfl⟩, hzero b ?_⟩
      rw [countP_after, if_pos hf, List.countP_eq_zero]
      intro x hx
      simp only [decide_eq_true_eq, not_and, not_not]
      intro hxn
      exact List.inj_on_of_nodup_map hnb hx hbm hxn
    · intro hun
      by_cases hex : ∃ b ∈ base.infos, b.Name = h.Name
      · right
        obtain ⟨b, hbm, hname⟩ := hex
        have hne : b ≠ h := by
          intro e
          exact hun ⟨b, hbm, hname, by simp [reflect.DeepEqual, e]⟩
        refine ⟨hknown h ⟨b, hbm, hname⟩, ?_⟩
        rw [countP_after, if_pos hf, ← count_eq_one_of_nodup_names _ hnb b hbm,
          List.count_eq_countP]
        apply List.countP_congr
        intro x hx
        simp only [decide_eq_true_eq, beq_iff_eq]
        constructor
        · rintro ⟨hxn, -⟩
          exact List.inj_on_of_nodup_map hnb hx hbm (hxn.trans hname.symm)
        · rintro rfl
          exact ⟨hname, hne⟩
      · left
        have hall : ∀ b ∈ base.infos, b.Name ≠ h.Name := by
          intro b hbm hn; exact hex ⟨b, hbm, hn⟩
        exact ⟨(hfresh h hall).1.trans hc, (hfresh h hall).2⟩

/-- An instance of C3 on the scenario of the specification: base `[A/P1, B/P2]` against
head `[A/P1-modified, C/P3]`; `C` is once in `added`, `A/P1-modified` is the after side of
one entry. -/
theorem buildSummary_head_side_witness :
    ∃ s, buildSummary (okResult [mkInfo "A" "X" "P1", mkInfo "B" "Y" "P2"])
        (okResult [mkInfo "A" "X" "P1-modified", mkInfo "C" "Z" "P3"]) =
          some (some s, none) ∧
      s.added.count (mkInfo "C" "Z" "P3") = 1 ∧
      mkInfo "A" "X" "P1-modified" ∉ s.added ∧
      s.modified.countP (fun m => decide (m.after = mkInfo "A" "X" "P1-modified")) = 1 := by
  obtain ⟨s, h1, h2, -⟩ :=
    buildSummary_head_side (okResult [mkInfo "A" "X" "P1", mkInfo "B" "Y" "P2"])
      (okResult [mkInfo "A" "X" "P1-modified", mkInfo "C" "Z" "P3"]) rfl rfl
  have hC := (h2 (mkInfo "C" "Z" "P3") (by decide)).1 (by decide)
  have hA := (h2 (mkInfo "A" "X" "P1-modified") (by decide)).2 (by decide)
  exact ⟨s, h1, hC.1.trans (by decide), hA.1, hA.2.trans (by decide)⟩

/-! ## Command templates -/

/-- Adding arguments never touches `baseCmd`. -/
theorem addArgs_baseCmd (extra : List String) :
    ∀ c : appendableArgCmd, (extra.foldl appendableArgCmd.addArg c).baseCmd = c.baseCmd := by
  induction extra with
  | nil => intro c; rfl
  | cons x rest ih => intro c; rw [List.foldl_cons, ih]; rfl

/-- A reset rebuilds the command from `baseCmd` alone. -/
theorem reset_of_baseCmd (c : appendableArgCmd) (name : String) (args : List String)
    (hc : c.baseCmd = name :: args) :
    c.reset = some { Cmd := exec.Command name args, baseCmd := name :: args } := by
  obtain ⟨cmd, base⟩ := c
  simp only at hc
  subst hc
  rfl

/-- One call of `cleanAndRestore`, whatever arguments `cmdGitRestore` has accumulated. -/
theorem cleanAndRestore_eq (runCmd : exec.Cmd → Option error) (g : appendableArgCmd)
    (hash : String) (hg : g.baseCmd = ["git", "restore", "-SW", "--source"]) :
    ∃ out, cleanAndRestore runCmd g hash = some out ∧
      out.cmdGitRestore.baseCmd = ["git", "restore", "-SW", "--source"] ∧
      out.ran =
        if runCmd cmdGitClean = none then
          [cmdGitClean,
            { Path := "git", Args := ["git", "restore", "-SW", "--source", hash, "."] }]
        else [cmdGitClean] := by
  cases hclean : runCmd cmdGitClean with
  | some e =>
    simp only [cleanAndRestore, hclean]
    exact ⟨_, rfl, hg, by simp⟩
  | none =>
    have hr := reset_of_baseCmd g "git" ["restore", "-SW", "--source"] hg
    simp only [cleanAndRestore, hclean, hr]
    split
    · exact ⟨_, rfl, rfl, by simp [appendableArgCmd.addArg, exec.Command]⟩
    · exact ⟨_, rfl, rfl, by simp [appendableArgCmd.addArg, exec.Command]⟩

/-- A sequence of calls of `cleanAndRestore`, from any value of `cmdGitRestore` built on
the template. -/
theorem cleanAndRestoreCalls_eq :
    ∀ (calls : List ((exec.Cmd → Option error) × String)) (g : appendableArgCmd),
      g.baseCmd = ["git", "restore", "-SW", "--source"] →
      cleanAndRestoreCalls calls g =
        some (calls.map (fun call =>
          if call.1 cmdGitClean = none then
            [cmdGitClean,
              { Path := "git", Args := ["git", "restore", "-SW", "--source", call.2, "."] }]
          else [cmdGitClean])) := by
  intro calls
  induction calls with
  | nil => intro g _; rfl
  | cons call rest ih =>
    intro g hg
    obtain ⟨runCmd, hash⟩ := call
    obtain ⟨out, h1, h2, h3⟩ := cleanAndRestore_eq runCmd g hash hg
    simp only [cleanAndRestoreCalls, h1, ih out.cmdGitRestore h2, h3, List.map_cons]

/-- C10: arguments never accumulate on a command template.  After any sequence of
`addArg` calls on `newAppendableArgCmd(name, args...)`, `reset()` succeeds and gives back
the command as first created: the argument list is `[name, args...]` and `baseCmd` is
unchanged.  Hence in every sequence of `cleanAndRestore` calls, started with any
arguments already added to `cmdGitRestore`, the call with hash `h` runs `git clean -xdf`
and then, unless that failed, the restore command with exactly the arguments
`["git", "restore", "-SW", "--source", h, "."]`. -/
theorem reset_restores_template :
    (∀ (name : String) (args extra : List String),
      (extra.foldl appendableArgCmd.addArg (newAppendableArgCmd name args)).reset =
          some (newAppendableArgCmd name args) ∧
      (newAppendableArgCmd name args).Cmd.Args = name :: args ∧
      (newAppendableArgCmd name args).baseCmd = name :: args ∧
      (extra.foldl appendableArgCmd.addArg (newAppendableArgCmd name args)).baseCmd =
          name :: args) ∧
    (∀ (calls : List ((exec.Cmd → Option error) × String)) (extra : List String),
      cleanAndRestoreCalls calls (extra.foldl appendableArgCmd.addArg cmdGitRestore) =
        some (calls.map (fun call =>
          if call.1 cmdGitClean = none then
            [cmdGitClean,
              { Path := "git", Args := ["git", "restore", "-SW", "--source", call.2, "."] }]
          else [cmdGitClean]))) ∧
    cmdGitClean.Args = ["git", "clean", "-xdf"] := by
  refine ⟨?_, ?_, rfl⟩
  · intro name args extra
    have hbase : (extra.foldl appendableArgCmd.addArg (newAppendableArgCmd name args)).baseCmd
        = name :: args := by
      rw [addArgs_baseCmd]; rfl
    exact ⟨reset_of_baseCmd _ name args hbase, rfl, rfl, hbase⟩
  · intro calls extra
    apply cleanAndRestoreCalls_eq
    rw [addArgs_baseCmd]; rfl
